import Mathlib

/-!
Verification of the alignment engine in `align.go` (package `align`).

Go strings are modelled as lists of characters over the byte alphabet: every
input considered is ASCII, where one `Char` is one byte, so Go's byte-based
`len`, slicing, `strings.Index`, `strings.HasPrefix` and `strings.Split`
coincide with the list operations used below.  Go `int` values that can be
negative (`countPadding`, `columnSize`, pad lengths) are modelled as `Int`;
Go maps with `int` keys and values are modelled as association lists with the
Go read-default of `0` made explicit (`mapGet`).
-/

/-- A Go string, as the list of its bytes (ASCII inputs: one `Char` per byte). -/
abbrev Str := List Char

/-- The `columnCounts` map of the `Align` struct (`map[int]int`), as an
association list with unique keys, built only through `mapSet`. -/
abbrev CMap := List (Nat × Nat)

/-- Reading a Go map: a missing key yields the zero value `0`. -/
def mapGet (m : CMap) (k : Nat) : Nat := (m.lookup k).getD 0

/-- Writing a Go map: replace the entry for `k` if present, otherwise add it. -/
def mapSet : CMap → Nat → Nat → CMap
  | [], k, v => [(k, v)]
  | (k', v') :: rest, k, v =>
    if k' = k then (k, v) :: rest else (k', v') :: mapSet rest k v

/-- The three `Justification` constants of `align.go`
(`JustifyRight`, `JustifyCenter`, `JustifyLeft`). -/
inductive Justification where
  | right
  | center
  | left
deriving DecidableEq

/-- The fill byte (`const padchar byte = ' '`). -/
def padchar : Char := ' '

/-- Go `strings.Index`: the byte index of the first occurrence of `pat` in
`s`, as `Option Nat` in place of Go's `-1` for "absent". -/
def strIndex : Str → Str → Option Nat
  | [], pat => if pat.isPrefixOf [] then some 0 else none
  | c :: t, pat =>
    if pat.isPrefixOf (c :: t) then some 0
    else (strIndex t pat).map fun i => i + 1

/-- Source function `genFieldLen(s, sep, qual string) int` of `align.go`. -/
def genFieldLen (s sep qual : Str) : Nat :=
  if qual = [] ∨ ¬ qual.isPrefixOf s then
    match strIndex s sep with
    | none => s.length
    | some i => i
  else
    match strIndex s (qual ++ sep) with
    | none => s.length
    | some i => i + qual.length

/-- Source function `fieldLen(s, sep string) int` of `align.go`. -/
def fieldLen (s sep : Str) : Nat := genFieldLen s sep []

/-- Source function `fieldLenEscaped(s, sep, qual string) int` of `align.go`. -/
def fieldLenEscaped (s sep qual : Str) : Nat := genFieldLen s sep qual

/-- One step per fuel unit of Go `strings.Split(s, sep)` for a non-empty
separator: split before each first occurrence of `sep`.  The fuel
`s.length + 1` used by `goSplit` is never exhausted, since every recursive
step consumes at least `sep.length ≥ 1` bytes; for an empty separator Go
explodes the string into runes, which the spec rules out of scope. -/
def goSplitGo : Nat → Str → Str → List Str
  | 0, s, _ => [s]
  | fuel + 1, s, sep =>
    if sep = [] then [s]
    else
      match strIndex s sep with
      | none => [s]
      | some i => s.take i :: goSplitGo fuel (s.drop (i + sep.length)) sep

/-- Go `strings.Split(s, sep)`, the branch taken by `splitWithQual` when the
text qualifier is off. -/
def goSplit (s sep : Str) : List Str := goSplitGo (s.length + 1) s sep

/-- One step per fuel unit of the qualifier-aware split loop of
`splitWithQual` in `align.go`:

	for start := 0; start < len(s); {
		count := genFieldLen(s[start:], sep, qual)
		words = append(words, s[start:start+count])
		start += count + len(sep)
	}

The fuel `s.length + 1` used by `splitQualLoop` is never exhausted because
each iteration advances the cursor by `count + sep.length ≥ 1`; when
`count + sep.length = 0` (possible only for an empty separator, which the
spec rules out) the Go loop never terminates, and the model cuts it off. -/
def splitQualGo : Nat → Str → Str → Str → List Str
  | 0, _, _, _ => []
  | fuel + 1, s, sep, qual =>
    if s = [] then []
    else
      let count := genFieldLen s sep qual
      if count + sep.length = 0 then [s.take count]
      else s.take count :: splitQualGo fuel (s.drop (count + sep.length)) sep qual

/-- The qualifier-on split loop of `splitWithQual` in `align.go`. -/
def splitQualLoop (s sep qual : Str) : List Str :=
  splitQualGo (s.length + 1) s sep qual

/-- Source method `splitWithQual(s, sep, qual string) []string` of `align.go`:
standard `strings.Split` when the qualifier is off, the cursor loop above
when it is on. -/
def splitWithQual (txtqOn : Bool) (s sep qual : Str) : List Str :=
  if txtqOn = false then goSplit s sep else splitQualLoop s sep qual

/-- One step per fuel unit of the measuring loop of `columnLength` in
`align.go` (identical in its qualifier-on and qualifier-off branches up to
the qualifier string passed to `genFieldLen`):

	for start := 0; start < len(line); {
		temp = fieldLenEscaped(line[start:], a.sep, a.txtq.Qualifier)
		start += temp + len(a.sep)
		if temp > a.columnCounts[columnNum] {
			a.columnCounts[columnNum] = temp
		}
		columnNum++
	}

Fuel as in `splitQualGo`; the two loops advance the cursor identically. -/
def measureGo : Nat → CMap → Str → Str → Str → Nat → CMap
  | 0, counts, _, _, _, _ => counts
  | fuel + 1, counts, s, sep, qual, columnNum =>
    if s = [] then counts
    else
      let temp := genFieldLen s sep qual
      let counts1 :=
        if mapGet counts columnNum < temp then mapSet counts columnNum temp
        else counts
      if temp + sep.length = 0 then counts1
      else measureGo fuel counts1 (s.drop (temp + sep.length)) sep qual (columnNum + 1)

/-- Source method `columnLength()` of `align.go`: one measuring pass over all
input lines, starting from the empty `columnCounts` map.  When the text
qualifier is off the qualifier string passed to `genFieldLen` is `""`
(`fieldLen` versus `fieldLenEscaped`). -/
def columnLength (txtqOn : Bool) (lines : List Str) (sep qual : Str) : CMap :=
  lines.foldl
    (fun counts line =>
      measureGo (line.length + 1) counts line sep (if txtqOn then qual else []) 0)
    []

/-- Source method `columnSize(num int) int` of `align.go`: `-1` when the key
is absent from `columnCounts`, the stored value otherwise. -/
def columnSize (m : CMap) (num : Nat) : Int :=
  match m.lookup num with
  | none => -1
  | some v => (v : Int)

/-- Modelled from the dependency `github.com/mattn/go-runewidth`:
`runewidth.StringWidth` sums per-rune display widths.  Over the ASCII byte
alphabet of this embedding every byte is a single rune of display width one,
so the width coincides with the byte length.  (The wide-glyph correction
branch of `countPadding` is therefore never taken on the inputs modelled
here, exactly as in the Go code on ASCII input.) -/
def stringWidth (s : Str) : Nat := s.length

/-- Source function `countPadding(s string, count int) int` of `align.go`. -/
def countPadding (s : Str) (count : Int) : Int :=
  let padLength := count - (s.length : Int)
  let rCount := stringWidth s
  let wordLen := s.length
  if rCount < wordLen then padLength + ((wordLen - rCount : Nat) : Int)
  else padLength

/-- Source function `fillWithPadding(padder Padder, length int)` of
`align.go`: append `length` fill bytes when `length` is positive, nothing
otherwise (the Go loop `for i := 0; i < length; i++` runs zero times for a
non-positive bound).  The padder is modelled as the string built so far. -/
def fillWithPadding (buf : Str) (length : Int) : Str :=
  buf ++ List.replicate length.toNat padchar

/-- Source function `applyPadding(padder, original, surroundingPad, columnNum,
padLength, just)` of `align.go`, on a padder holding `buf`. -/
def applyPadding (buf : Str) (original surroundingPad : Str) (columnNum : Nat)
    (padLength : Int) (just : Justification) : Str :=
  let b1 :=
    if 0 < surroundingPad.length then
      if 0 < columnNum then buf ++ surroundingPad else buf
    else buf
  let b2 :=
    match just with
    | Justification.left => fillWithPadding (b1 ++ original) padLength
    | Justification.right => fillWithPadding b1 padLength ++ original
    | Justification.center =>
      if 2 < padLength then
        fillWithPadding
          (fillWithPadding b1 (padLength - padLength / 2) ++ original)
          (padLength / 2)
      else fillWithPadding (b1 ++ original) padLength
  if 0 < surroundingPad.length then b2 ++ surroundingPad else b2

/-- Source function `contains(nums []int, num int) bool` of `align.go`. -/
def contains : List Int → Int → Bool
  | [], _ => false
  | v :: rest, num => if v = num then true else contains rest num

/-- The justification chosen by `export` for the field at 0-based position
`columnNum`: the global default, overridden by the `ColumnOverride` entry
whose key equals `columnNum + 1`, scanned as Go ranges over the map (keys of
a Go map are unique, so the scanning order is immaterial):

	j := a.padOpts.Justification
	if len(a.padOpts.ColumnOverride) > 0 {
		for k, v := range a.padOpts.ColumnOverride {
			if k == columnNum+1 {
				j = v
			}
		}
	}
-/
def effectiveJust (defaultJ : Justification)
    (override : List (Int × Justification)) (columnNum : Nat) : Justification :=
  if 0 < override.length then
    override.foldl
      (fun j kv => if kv.1 = (columnNum : Int) + 1 then kv.2 else j)
      defaultJ
  else defaultJ

/-- The configuration of one `Align` run: the separators, the text qualifier
(`TextQualifier`), the padding options (`PaddingOpts`) and the column filter,
exactly the fields of the `Align` struct that `columnLength` and `export`
read. -/
structure Config where
  sep : Str
  sepOut : Str
  txtqOn : Bool
  qual : Str
  justification : Justification
  columnOverride : List (Int × Justification)
  pad : Int
  filter : List Int

/-- The per-word loop of `export` in `align.go`, producing the bytes written
for the remaining words of one line.  `columnNum` and `tempColumn` are the
values of the Go variables before the current word is handled; `wordsLen` is
`len(words)`.  Mirrors, in order: the filter skip (with its trailing-newline
check against `len(words)`), the justification override, the padding, and
the row-terminator test `a.filterLen > 0 && a.filter[a.filterLen-1] ==
columnNum || columnNum == len(paddedWord)` on the incremented counter, which
breaks the loop. -/
def exportLoop (cfg : Config) (counts : CMap) (surroundingPad : Str)
    (wordsLen : Nat) : List Str → Nat → Nat → Str
  | [], _, _ => []
  | word :: rest, columnNum, tempColumn =>
    if 0 < cfg.filter.length ∧ contains cfg.filter ((columnNum : Int) + 1) = false then
      (if columnNum + 1 = wordsLen then ['\n'] else []) ++
        exportLoop cfg counts surroundingPad wordsLen rest (columnNum + 1) tempColumn
    else
      let paddedWord :=
        applyPadding [] word surroundingPad tempColumn
          (countPadding word ((mapGet counts columnNum : Nat) : Int))
          (effectiveJust cfg.justification cfg.columnOverride columnNum)
      if (0 < cfg.filter.length ∧ cfg.filter.getLast?.getD 0 = (columnNum : Int) + 1) ∨
          columnNum + 1 = paddedWord.length then
        paddedWord ++ ['\n']
      else
        paddedWord ++ cfg.sepOut ++
          exportLoop cfg counts surroundingPad wordsLen rest (columnNum + 1) (tempColumn + 1)

/-- The bytes `export` writes for one line: split the line with
`splitWithQual`, then run the per-word loop from column 0. -/
def exportLine (cfg : Config) (counts : CMap) (surroundingPad : Str)
    (line : Str) : Str :=
  let words := splitWithQual cfg.txtqOn line cfg.sep cfg.qual
  exportLoop cfg counts surroundingPad words.length words 0 0

/-- Source method `export()` of `align.go`: clamp a negative `Pad` to zero,
build the surrounding pad of `Pad` fill bytes, and write every line in
order.  (Renamed from `export`, a Lean keyword.) -/
def exportLines (cfg : Config) (counts : CMap) (lines : List Str) : Str :=
  let p : Int := if cfg.pad < 0 then 0 else cfg.pad
  let surroundingPad : Str := List.replicate p.toNat padchar
  (lines.map (exportLine cfg counts surroundingPad)).flatten

/-- Source method `Align()` of `align.go`: the measuring pass followed by the
rendering pass over the same lines. -/
def align (cfg : Config) (lines : List Str) : Str :=
  exportLines cfg (columnLength cfg.txtqOn lines cfg.sep cfg.qual) lines

/-- Occurrence predicate used to state the tokenizer claims: `pat` occurs in
`s` at byte position `j`. -/
def occursAt (s pat : Str) (j : Nat) : Prop := pat.isPrefixOf (s.drop j) = true

/-- The position of the first occurrence of `pat` in `s`. -/
def firstOccurrence (s pat : Str) (i : Nat) : Prop :=
  occursAt s pat i ∧ ∀ j, j < i → ¬ occursAt s pat j

/-- The sequence of field lengths examined by one run of the measuring loop
of `columnLength` over the suffix `s` (same cursor advance and same fuel
convention as `measureGo`). -/
def fieldLensGo : Nat → Str → Str → Str → List Nat
  | 0, _, _, _ => []
  | fuel + 1, s, sep, qual =>
    if s = [] then []
    else
      let temp := genFieldLen s sep qual
      if temp + sep.length = 0 then [temp]
      else temp :: fieldLensGo fuel (s.drop (temp + sep.length)) sep qual

/-- The field lengths the measuring pass sees in one line. -/
def fieldLens (s sep qual : Str) : List Nat := fieldLensGo (s.length + 1) s sep qual

/-- The field lengths measured for `line` under the configuration's qualifier
choice (the qualifier string is only consulted when the qualifier is on). -/
def measuredWidths (txtqOn : Bool) (line sep qual : Str) : List Nat :=
  fieldLens line sep (if txtqOn then qual else [])

/-- The maximum measured field length at column `c` over all lines (`0` when
no line has a field there). -/
def maxWidthAt (txtqOn : Bool) (lines : List Str) (sep qual : Str) (c : Nat) : Nat :=
  lines.foldl (fun acc l => max acc ((measuredWidths txtqOn l sep qual).getD c 0)) 0

/-- Folding one line's field lengths into the width map, starting at column
`n`: the specification-side reformulation of `measureGo` that separates the
tokenization from the map updates. -/
def applyFields : CMap → List Nat → Nat → CMap
  | m, [], _ => m
  | m, f :: fs, n =>
    applyFields (if mapGet m n < f then mapSet m n f else m) fs (n + 1)

instance occursAt.decidable (s pat : Str) (j : Nat) : Decidable (occursAt s pat j) :=
  inferInstanceAs (Decidable (pat.isPrefixOf (s.drop j) = true))

theorem occursAt_nil {pat : Str} {j : Nat} (h : occursAt [] pat j) : pat = [] := by
  simpa [occursAt] using h

theorem occursAt_cons_succ {c : Char} {t pat : Str} {j : Nat} :
    occursAt (c :: t) pat (j + 1) ↔ occursAt t pat j := by
  simp [occursAt]

theorem occursAt_cons_zero {c : Char} {t pat : Str} :
    occursAt (c :: t) pat 0 ↔ pat.isPrefixOf (c :: t) = true := by
  simp [occursAt]

theorem strIndex_none_not_occurs (s : Str) : ∀ (pat : Str), strIndex s pat = none →
    ∀ j, ¬ occursAt s pat j := by
  induction s with
  | nil =>
    intro pat h j hocc
    simp only [strIndex] at h
    split at h
    · exact Option.noConfusion h
    · next hpre => exact hpre (by simpa [occursAt] using hocc)
  | cons c t ih =>
    intro pat h j hocc
    simp only [strIndex] at h
    split at h
    · exact Option.noConfusion h
    · next hpre =>
      cases hx : strIndex t pat with
      | none =>
        match j with
        | 0 => exact hpre (by simpa [occursAt] using hocc)
        | j + 1 => exact ih pat hx j (occursAt_cons_succ.1 hocc)
      | some i => rw [hx] at h; exact Option.noConfusion h

theorem strIndex_some_first (s : Str) : ∀ (pat : Str) (i : Nat), strIndex s pat = some i →
    occursAt s pat i ∧ ∀ j, j < i → ¬ occursAt s pat j := by
  induction s with
  | nil =>
    intro pat i h
    simp only [strIndex] at h
    split at h
    · next hpre =>
      cases h
      exact ⟨by simpa [occursAt] using hpre, fun j hj => absurd hj (Nat.not_lt_zero j)⟩
    · exact Option.noConfusion h
  | cons c t ih =>
    intro pat i h
    simp only [strIndex] at h
    split at h
    · next hpre =>
      cases h
      exact ⟨by simpa [occursAt] using hpre, fun j hj => absurd hj (Nat.not_lt_zero j)⟩
    · next hpre =>
      cases hx : strIndex t pat with
      | none => rw [hx] at h; exact Option.noConfusion h
      | some i' =>
        rw [hx] at h
        simp only [Option.map_some'] at h
        cases h
        obtain ⟨h1, h2⟩ := ih pat i' hx
        refine ⟨occursAt_cons_succ.2 h1, ?_⟩
        intro j hj
        match j with
        | 0 => exact fun hocc => hpre (occursAt_cons_zero.1 hocc)
        | j + 1 =>
          intro hocc
          exact h2 j (Nat.lt_of_succ_lt_succ hj) (occursAt_cons_succ.1 hocc)

theorem firstOccurrence_strIndex (s pat : Str) (i : Nat) (h : firstOccurrence s pat i) :
    strIndex s pat = some i := by
  cases hx : strIndex s pat with
  | none => exact absurd h.1 (strIndex_none_not_occurs s pat hx i)
  | some i' =>
    obtain ⟨h1, h2⟩ := strIndex_some_first s pat i' hx
    rcases Nat.lt_trichotomy i i' with hlt | heq | hgt
    · exact absurd h.1 (h2 i hlt)
    · rw [heq]
    · exact absurd h1 (h.2 i' hgt)

theorem strIndex_none_of_not_occurs {s pat : Str} (h : ∀ j, ¬ occursAt s pat j) :
    strIndex s pat = none := by
  cases hx : strIndex s pat with
  | none => rfl
  | some i => exact absurd (strIndex_some_first s pat i hx).1 (h i)

/-- C4: for every line suffix `s`, separator `sep` and qualifier `qual`, if
qualifiers are disabled (`qual = ""`) or `s` does not begin with `qual`,
`genFieldLen` returns the distance to the first occurrence of `sep` in `s`,
or `len(s)` when `sep` is absent; if qualifiers are enabled and `s` begins
with `qual`, it returns the length up to and including the first occurrence
of `qual` immediately followed by `sep`, or `len(s)` when no such occurrence
exists (unterminated qualifier). -/
theorem genFieldLen_first_occurrence (s sep qual : Str) :
    ((qual = [] ∨ ¬ qual.isPrefixOf s) →
      (∀ i, firstOccurrence s sep i → genFieldLen s sep qual = i) ∧
      ((∀ j, ¬ occursAt s sep j) → genFieldLen s sep qual = s.length)) ∧
    (qual ≠ [] → qual.isPrefixOf s →
      (∀ i, firstOccurrence s (qual ++ sep) i →
        genFieldLen s sep qual = i + qual.length) ∧
      ((∀ j, ¬ occursAt s (qual ++ sep) j) → genFieldLen s sep qual = s.length)) := by
  constructor
  · intro hcond
    constructor
    · intro i hfo
      simp only [genFieldLen, if_pos hcond, firstOccurrence_strIndex s sep i hfo]
    · intro hno
      simp only [genFieldLen, if_pos hcond, strIndex_none_of_not_occurs hno]
  · intro hq hpre
    have hcond : ¬ (qual = [] ∨ ¬ qual.isPrefixOf s) := by
      intro hor
      rcases hor with h1 | h2
      · exact hq h1
      · exact h2 hpre
    constructor
    · intro i hfo
      simp only [genFieldLen, if_neg hcond, firstOccurrence_strIndex s (qual ++ sep) i hfo]
    · intro hno
      simp only [genFieldLen, if_neg hcond, strIndex_none_of_not_occurs hno]

/-- Witness for C4 at concrete inputs: an unqualified field of `"ab,c"` and a
qualified field of `"qx,q,y"` with qualifier `"q"`. -/
theorem genFieldLen_first_occurrence_witness :
    genFieldLen ['a', 'b', ',', 'c'] [','] [] = 2 ∧
    genFieldLen ['q', 'x', ',', 'q', ',', 'y'] [','] ['q'] = 4 := by
  constructor
  · exact ((genFieldLen_first_occurrence ['a', 'b', ',', 'c'] [','] []).1
      (Or.inl rfl)).1 2 ⟨by decide, by decide⟩
  · exact ((genFieldLen_first_occurrence ['q', 'x', ',', 'q', ',', 'y'] [','] ['q']).2
      (by decide) (by decide)).1 3 ⟨by decide, by decide⟩

/-- C7: in `applyPadding` with Center justification, for `padLength > 2` the
filler splits as `padLength - padLength/2` fill bytes before the field and
`padLength/2` after it, and for `padLength <= 2` the output is identical to
Left justification. -/
theorem applyPadding_center_spec (buf original surroundingPad : Str)
    (columnNum : Nat) (padLength : Int) :
    (2 < padLength →
      applyPadding buf original surroundingPad columnNum padLength Justification.center =
        (if 0 < surroundingPad.length then
            (if 0 < columnNum then buf ++ surroundingPad else buf)
          else buf) ++
          (List.replicate (padLength - padLength / 2).toNat padchar ++
            (original ++
              (List.replicate (padLength / 2).toNat padchar ++
                (if 0 < surroundingPad.length then surroundingPad else [])))) ) ∧
    (padLength ≤ 2 →
      applyPadding buf original surroundingPad columnNum padLength Justification.center =
      applyPadding buf original surroundingPad columnNum padLength Justification.left) := by
  constructor
  · intro h
    simp only [applyPadding, fillWithPadding, if_pos h]
    by_cases hs : 0 < surroundingPad.length
    · simp only [if_pos hs, List.append_assoc]
    · simp only [if_neg hs, List.append_assoc, List.append_nil]
  · intro h
    simp only [applyPadding, fillWithPadding, if_neg (by omega : ¬ 2 < padLength)]

/-- Witness for C7: `padLength = 4` on a one-byte field gives two leading and
two trailing fill bytes; `padLength = 2` degrades to Left justification. -/
theorem applyPadding_center_spec_witness :
    applyPadding [] ['x'] [' '] 1 4 Justification.center =
      [' ', ' ', ' ', 'x', ' ', ' ', ' '] ∧
    applyPadding [] ['x'] [' '] 1 2 Justification.center =
      applyPadding [] ['x'] [' '] 1 2 Justification.left := by
  constructor
  · exact ((applyPadding_center_spec [] ['x'] [' '] 1 4).1 (by decide)).trans (by decide)
  · exact (applyPadding_center_spec [] ['x'] [' '] 1 2).2 (by decide)

/-- C9: a field whose byte length exceeds the recorded column width makes
`countPadding` negative, `fillWithPadding` writes zero fill bytes for any
non-positive length, and `applyPadding` emits the field with only its own
text and the surrounding pad, for every justification. -/
theorem applyPadding_overlong_field (buf word surroundingPad : Str)
    (columnNum : Nat) (count : Int) (just : Justification)
    (h : count < (word.length : Int)) :
    (∀ length : Int, length ≤ 0 → fillWithPadding buf length = buf) ∧
    countPadding word count < 0 ∧
    applyPadding buf word surroundingPad columnNum (countPadding word count) just =
      (if 0 < surroundingPad.length then
          (if 0 < columnNum then buf ++ surroundingPad else buf)
        else buf) ++
        (word ++ (if 0 < surroundingPad.length then surroundingPad else [])) := by
  have hcp : countPadding word count < 0 := by
    simp only [countPadding, stringWidth]
    rw [if_neg (lt_irrefl _)]
    omega
  have htn : (countPadding word count).toNat = 0 := Int.toNat_of_nonpos (le_of_lt hcp)
  refine ⟨?_, hcp, ?_⟩
  · intro length hle
    simp [fillWithPadding, Int.toNat_of_nonpos hle]
  · cases just with
    | left =>
      simp only [applyPadding, fillWithPadding, htn, List.replicate_zero, List.append_nil]
      by_cases hs : 0 < surroundingPad.length
      · simp only [if_pos hs, List.append_assoc]
      · simp only [if_neg hs, List.append_nil]
    | right =>
      simp only [applyPadding, fillWithPadding, htn, List.replicate_zero, List.append_nil]
      by_cases hs : 0 < surroundingPad.length
      · simp only [if_pos hs, List.append_assoc]
      · simp only [if_neg hs, List.append_nil]
    | center =>
      simp only [applyPadding, fillWithPadding,
        if_neg (by omega : ¬ 2 < countPadding word count), htn, List.replicate_zero,
        List.append_nil]
      by_cases hs : 0 < surroundingPad.length
      · simp only [if_pos hs, List.append_assoc]
      · simp only [if_neg hs, List.append_nil]

/-- Witness for C9: the three-byte field `"abc"` in a column of recorded
width 1 still renders, as the field text with its surrounding pad only. -/
theorem applyPadding_overlong_field_witness :
    countPadding ['a', 'b', 'c'] 1 < 0 ∧
    applyPadding [] ['a', 'b', 'c'] [' '] 1 (countPadding ['a', 'b', 'c'] 1)
        Justification.right = [' ', 'a', 'b', 'c', ' '] ∧
    fillWithPadding ['z'] (-5) = ['z'] := by
  have h := applyPadding_overlong_field [] ['a', 'b', 'c'] [' '] 1 1 Justification.right
    (by decide)
  have h2 := applyPadding_overlong_field ['z'] ['a', 'b', 'c'] [' '] 1 1 Justification.right
    (by decide)
  exact ⟨h.2.1, (h.2.2).trans (by decide), h2.1 (-5) (by decide)⟩

theorem foldl_override_no_match (key : Int) (l : List (Int × Justification))
    (hno : ∀ kv ∈ l, kv.1 ≠ key) (j0 : Justification) :
    l.foldl (fun j kv => if kv.1 = key then kv.2 else j) j0 = j0 := by
  induction l generalizing j0 with
  | nil => rfl
  | cons hd tl ih =>
    simp only [List.foldl_cons]
    rw [if_neg (hno hd (List.mem_cons_self hd tl))]
    exact ih (fun kv hkv => hno kv (List.mem_cons_of_mem hd hkv)) j0

theorem foldl_override_match (key : Int) (v : Justification) (l : List (Int × Justification))
    (huniq : l.Pairwise (fun a b => a.1 ≠ b.1)) (hmem : (key, v) ∈ l) (j0 : Justification) :
    l.foldl (fun j kv => if kv.1 = key then kv.2 else j) j0 = v := by
  induction l generalizing j0 with
  | nil => cases hmem
  | cons hd tl ih =>
    rcases List.mem_cons.1 hmem with heq | hmem'
    · subst heq
      simp only [List.foldl_cons, if_pos rfl]
      exact foldl_override_no_match key tl
        (fun kv hkv => Ne.symm ((List.pairwise_cons.1 huniq).1 kv hkv)) v
    · have hne : hd.1 ≠ key := by
        have := (List.pairwise_cons.1 huniq).1 (key, v) hmem'
        simpa using this
      simp only [List.foldl_cons, if_neg hne]
      exact ih (List.pairwise_cons.1 huniq).2 hmem' j0

/-- C8: the justification `export` uses for the field at 0-based position
`c` (whose 1-based column number is `c + 1`) is the `ColumnOverride` entry
for that column number when one exists, and the global default otherwise
(the keys of a Go map are unique). -/
theorem effectiveJust_override (d : Justification) (override : List (Int × Justification))
    (c : Nat) (huniq : override.Pairwise (fun a b => a.1 ≠ b.1)) :
    (∀ v, ((c : Int) + 1, v) ∈ override → effectiveJust d override c = v) ∧
    ((∀ v, ((c : Int) + 1, v) ∉ override) → effectiveJust d override c = d) := by
  constructor
  · intro v hmem
    have hlen : 0 < override.length := by
      cases override
      · cases hmem
      · simp
    simp only [effectiveJust, if_pos hlen]
    exact foldl_override_match _ v override huniq hmem d
  · intro hno
    simp only [effectiveJust]
    split
    · refine foldl_override_no_match _ override ?_ d
      intro kv hkv hk
      exact hno kv.2 (by rw [← hk]; simpa using hkv)
    · rfl

/-- Witness for C8: an override keyed on column number 2 applies to the field
at 0-based position 1 and not to the field at position 0. -/
theorem effectiveJust_override_witness :
    effectiveJust Justification.left [((2 : Int), Justification.right)] 1 =
      Justification.right ∧
    effectiveJust Justification.left [((2 : Int), Justification.right)] 0 =
      Justification.left := by
  constructor
  · exact (effectiveJust_override Justification.left [((2 : Int), Justification.right)] 1
      (List.pairwise_singleton _ _)).1 Justification.right (by decide)
  · refine (effectiveJust_override Justification.left [((2 : Int), Justification.right)] 0
      (List.pairwise_singleton _ _)).2 ?_
    intro v hv
    have : ((0 : Nat) : Int) + 1 = 2 := by
      have := List.mem_singleton.1 hv
      exact congrArg Prod.fst this
    omega

theorem occursAt_bound {s pat : Str} {j : Nat} (h : occursAt s pat j) (hp : pat ≠ []) :
    j + pat.length ≤ s.length := by
  have hpre : pat <+: s.drop j := List.isPrefixOf_iff_prefix.1 h
  have hlen := hpre.length_le
  rw [List.length_drop] at hlen
  have h1 : 0 < pat.length := List.length_pos.2 hp
  omega

theorem occursAt_of_append {s a b : Str} {j : Nat} (h : occursAt s (a ++ b) j) :
    occursAt s b (j + a.length) := by
  obtain ⟨t, ht⟩ := List.isPrefixOf_iff_prefix.1 h
  have hdrop : s.drop (j + a.length) = b ++ t := by
    rw [← List.drop_drop, ← ht, List.append_assoc, List.drop_left]
  unfold occursAt
  rw [hdrop]
  exact List.isPrefixOf_iff_prefix.2 ⟨t, rfl⟩

theorem genFieldLen_of_no_sep {s sep qual : Str} (h : ∀ j, ¬ occursAt s sep j) :
    genFieldLen s sep qual = s.length := by
  have hsepn : strIndex s sep = none := strIndex_none_of_not_occurs h
  by_cases hcond : qual = [] ∨ ¬ qual.isPrefixOf s
  · simp only [genFieldLen, if_pos hcond, hsepn]
  · have hq : strIndex s (qual ++ sep) = none := by
      refine strIndex_none_of_not_occurs ?_
      intro i hi
      exact h (i + qual.length) (occursAt_of_append hi)
    simp only [genFieldLen, if_neg hcond, hq]

theorem splitQualGo_nil (fuel : Nat) (sep qual : Str) :
    splitQualGo fuel [] sep qual = [] := by
  cases fuel <;> simp [splitQualGo]

theorem goSplitGo_ne_nil (fuel : Nat) (s sep : Str) : goSplitGo fuel s sep ≠ [] := by
  cases fuel with
  | zero => simp [goSplitGo]
  | succ n =>
    simp only [goSplitGo]
    split
    · simp
    · split <;> simp

theorem strIndex_nil_of_ne {sep : Str} (hsep : sep ≠ []) : strIndex [] sep = none := by
  simp only [strIndex]
  rw [if_neg]
  intro hp
  exact hsep (List.prefix_nil.1 (List.isPrefixOf_iff_prefix.1 hp))

theorem goSplitGo_nil_of_sep_ne {fuel : Nat} {sep : Str} (h0 : 0 < fuel) (hsep : sep ≠ []) :
    goSplitGo fuel [] sep = [[]] := by
  cases fuel with
  | zero => omega
  | succ n =>
    simp only [goSplitGo, if_neg hsep, strIndex_nil_of_ne hsep]

theorem goSplit_no_occurrence {s sep : Str} (hsep : sep ≠ [])
    (h : ∀ j, ¬ occursAt s sep j) : goSplit s sep = [s] := by
  simp only [goSplit, goSplitGo, if_neg hsep, strIndex_none_of_not_occurs h]

theorem splitQualLoop_no_occurrence {s sep qual : Str} (hs : s ≠ [])
    (h : ∀ j, ¬ occursAt s sep j) : splitQualLoop s sep qual = [s] := by
  have hlen : genFieldLen s sep qual = s.length := genFieldLen_of_no_sep h
  have hpos : 0 < s.length := List.length_pos.2 hs
  simp only [splitQualLoop, splitQualGo, if_neg hs, hlen]
  rw [if_neg (by omega), List.take_length, List.drop_eq_nil_of_le (by omega),
    splitQualGo_nil]

theorem getLast?_cons_of_ne_nil {α : Type} (x : α) {L : List α} (h : L ≠ []) :
    (x :: L).getLast? = L.getLast? := by
  cases L with
  | nil => exact absurd rfl h
  | cons y L' => exact List.getLast?_cons_cons

theorem goSplitGo_trailing_empty (c : Char) :
    ∀ (fuel : Nat) (s : Str), s.length < fuel → [c] <:+ s →
      (goSplitGo fuel s [c]).getLast? = some [] := by
  intro fuel
  induction fuel with
  | zero => intro s hs _; omega
  | succ fuel ih =>
    intro s hs hsuf
    obtain ⟨t, ht⟩ := hsuf
    subst ht
    have hslen : (t ++ [c]).length = t.length + 1 := by simp
    have hocc : occursAt (t ++ [c]) [c] t.length := by
      unfold occursAt
      rw [List.drop_left]
      exact List.isPrefixOf_iff_prefix.2 (List.prefix_refl _)
    cases hx : strIndex (t ++ [c]) [c] with
    | none => exact absurd hocc (strIndex_none_not_occurs _ [c] hx t.length)
    | some i =>
      have hfirst := strIndex_some_first _ [c] i hx
      have hib : i + 1 ≤ (t ++ [c]).length := by
        have := occursAt_bound hfirst.1 (by simp)
        simpa using this
      simp only [goSplitGo, if_neg (by simp : ¬ ([c] : Str) = []), hx,
        List.length_singleton]
      by_cases hd : (t ++ [c]).drop (i + 1) = []
      · rw [hd, goSplitGo_nil_of_sep_ne (by omega) (by simp)]
        rfl
      · have hit : i + 1 ≤ t.length := by
          by_contra hgt
          exact hd (List.drop_eq_nil_of_le (by omega))
        have hsufrest : [c] <:+ (t ++ [c]).drop (i + 1) := by
          rw [List.drop_append_of_le_length hit]
          exact ⟨t.drop (i + 1), rfl⟩
        have hrec := ih ((t ++ [c]).drop (i + 1)) (by rw [List.length_drop]; omega) hsufrest
        rw [getLast?_cons_of_ne_nil _ (goSplitGo_ne_nil fuel _ [c])]
        exact hrec

/-- C5 counterexample: with the qualifier enabled, the non-empty line `"a,"`
ends in the separator `","` yet splits into the single field `"a"`; its last
field is not an empty field, contradicting the claim for the qualifier-on
mode of `splitWithQual`. -/
theorem splitWithQual_qualifier_no_trailing_empty :
    splitWithQual true ['a', ','] [','] ['q'] = [['a']] ∧
    (splitWithQual true ['a', ','] [','] ['q']).getLast? ≠ some ([] : Str) := by
  decide

/-- C5 amended: for every non-empty line and non-empty separator, a line with
zero occurrences of the separator splits into exactly one field (the whole
line) in both qualifier modes; and with the qualifier disabled and a
single-byte separator, a line ending in the separator has a trailing empty
field as its last field.  (With the qualifier enabled the cursor loop stops
at end of line, so a line ending in a separator does not get a trailing
empty field, as the counterexample shows.) -/
theorem splitWithQual_edge_cases (txtqOn : Bool) (line sep qual : Str)
    (hline : line ≠ []) (hsep : sep ≠ []) :
    ((∀ j, ¬ occursAt line sep j) → splitWithQual txtqOn line sep qual = [line]) ∧
    (∀ c : Char, sep = [c] → [c] <:+ line →
      (splitWithQual false line sep qual).getLast? = some ([] : Str)) := by
  constructor
  · intro h
    unfold splitWithQual
    split
    · exact goSplit_no_occurrence hsep h
    · exact splitQualLoop_no_occurrence hline h
  · intro c hc hsuf
    simp only [splitWithQual, if_pos rfl, goSplit]
    subst hc
    exact goSplitGo_trailing_empty c (line.length + 1) line (by omega) hsuf

/-- Witness for C5 at concrete inputs: `"ab"` has no separator and splits
into one field with the qualifier on; `"a,"` splits with a trailing empty
field with the qualifier off. -/
theorem splitWithQual_edge_cases_witness :
    splitWithQual true ['a', 'b'] [','] ['q'] = [['a', 'b']] ∧
    (splitWithQual false ['a', ','] [','] []).getLast? = some ([] : Str) := by
  constructor
  · exact (splitWithQual_edge_cases true ['a', 'b'] [','] ['q'] (by decide) (by decide)).1
      (strIndex_none_not_occurs ['a', 'b'] [','] (by decide))
  · exact (splitWithQual_edge_cases false ['a', ','] [','] [] (by decide) (by decide)).2
      ',' rfl ⟨['a'], rfl⟩

theorem lookup_cons_eq (k v : Nat) (tl : CMap) (kk : Nat) :
    ((k, v) :: tl).lookup kk = if kk = k then some v else tl.lookup kk := by
  rw [List.lookup_cons]
  by_cases h : kk = k
  · rw [if_pos h, show (kk == k) = true from beq_iff_eq.2 h]
  · rw [if_neg h, show (kk == k) = false from beq_eq_false_iff_ne.2 h]

theorem lookup_mapSet (k v : Nat) : ∀ (m : CMap) (kk : Nat),
    (mapSet m k v).lookup kk = if kk = k then some v else m.lookup kk := by
  intro m
  induction m with
  | nil =>
    intro kk
    simp only [mapSet, lookup_cons_eq, List.lookup_nil]
  | cons hd tl ih =>
    intro kk
    obtain ⟨k', v'⟩ := hd
    simp only [mapSet]
    by_cases hk : k' = k
    · subst hk
      rw [if_pos rfl]
      simp only [lookup_cons_eq]
      by_cases h : kk = k' <;> simp [h]
    · rw [if_neg hk]
      simp only [lookup_cons_eq, ih kk]
      by_cases h1 : kk = k' <;> by_cases h2 : kk = k <;> simp_all

theorem mapGet_mapSet (m : CMap) (k v kk : Nat) :
    mapGet (mapSet m k v) kk = if kk = k then v else mapGet m kk := by
  unfold mapGet
  rw [lookup_mapSet]
  by_cases h : kk = k <;> simp [h]

theorem applyFields_get (fs : List Nat) : ∀ (m : CMap) (n k : Nat),
    mapGet (applyFields m fs n) k =
      max (mapGet m k) (if n ≤ k then fs.getD (k - n) 0 else 0) := by
  induction fs with
  | nil =>
    intro m n k
    simp only [applyFields, List.getD_nil, ite_self]
    omega
  | cons f fs ih =>
    intro m n k
    simp only [applyFields]
    rw [ih]
    have hup : mapGet (if mapGet m n < f then mapSet m n f else m) k =
        if k = n then max (mapGet m k) f else mapGet m k := by
      split
      · next hlt =>
        rw [mapGet_mapSet]
        by_cases h : k = n
        · subst h; rw [if_pos rfl, if_pos rfl]; omega
        · rw [if_neg h, if_neg h]
      · next hge =>
        by_cases h : k = n
        · subst h; rw [if_pos rfl]; omega
        · rw [if_neg h]
    rw [hup]
    rcases Nat.lt_trichotomy k n with h | h | h
    · rw [if_neg (by omega), if_neg (by omega), if_neg (by omega)]
    · subst h
      rw [if_pos rfl, if_neg (by omega), if_pos (Nat.le_refl k), Nat.sub_self,
        List.getD_cons_zero]
      omega
    · rw [if_neg (by omega), if_pos (by omega), if_pos (by omega)]
      have hsub : k - n = (k - (n + 1)) + 1 := by omega
      rw [hsub, List.getD_cons_succ]

theorem applyFields_lookup_none (fs : List Nat) : ∀ (m : CMap) (n k : Nat),
    ((applyFields m fs n).lookup k = none ↔
      (m.lookup k = none ∧ (if n ≤ k then fs.getD (k - n) 0 else 0) ≤ mapGet m k)) := by
  induction fs with
  | nil =>
    intro m n k
    simp only [applyFields, List.getD_nil, ite_self]
    simp
  | cons f fs ih =>
    intro m n k
    simp only [applyFields]
    rw [ih]
    have hlk : (if mapGet m n < f then mapSet m n f else m).lookup k =
        if k = n ∧ mapGet m n < f then some f else m.lookup k := by
      split
      · next hlt =>
        rw [lookup_mapSet]
        by_cases h : k = n
        · rw [if_pos h, if_pos ⟨h, hlt⟩]
        · rw [if_neg h, if_neg (fun hh => h hh.1)]
      · next hge =>
        rw [if_neg (fun hh => hge hh.2)]
    have hget : mapGet (if mapGet m n < f then mapSet m n f else m) k =
        if k = n then max (mapGet m k) f else mapGet m k := by
      split
      · next hlt =>
        rw [mapGet_mapSet]
        by_cases h : k = n
        · subst h; rw [if_pos rfl, if_pos rfl]; omega
        · rw [if_neg h, if_neg h]
      · next hge =>
        by_cases h : k = n
        · subst h; rw [if_pos rfl]; omega
        · rw [if_neg h]
    rw [hlk, hget]
    rcases Nat.lt_trichotomy k n with h | h | h
    · rw [if_neg (show ¬ (k = n ∧ mapGet m n < f) from fun hh => absurd hh.1 (by omega)),
        if_neg (show ¬ n + 1 ≤ k by omega),
        if_neg (show ¬ k = n by omega),
        if_neg (show ¬ n ≤ k by omega)]
    · subst h
      rw [if_neg (show ¬ k + 1 ≤ k by omega),
        if_pos (show k = k from rfl),
        if_pos (Nat.le_refl k), Nat.sub_self, List.getD_cons_zero]
      by_cases hlt : mapGet m k < f
      · rw [if_pos (show k = k ∧ mapGet m k < f from ⟨rfl, hlt⟩)]
        constructor
        · rintro ⟨hcontra, _⟩; exact absurd hcontra (by simp)
        · rintro ⟨_, hle⟩; exact absurd hle (by omega)
      · rw [if_neg (show ¬ (k = k ∧ mapGet m k < f) from fun hh => hlt hh.2)]
        constructor
        · rintro ⟨h1, _⟩; exact ⟨h1, by omega⟩
        · rintro ⟨h1, _⟩; exact ⟨h1, Nat.zero_le _⟩
    · rw [if_neg (show ¬ (k = n ∧ mapGet m n < f) from fun hh => absurd hh.1 (by omega)),
        if_pos (show n + 1 ≤ k by omega),
        if_neg (show ¬ k = n by omega),
        if_pos (show n ≤ k by omega)]
      have hsub : k - n = (k - (n + 1)) + 1 := by omega
      rw [hsub, List.getD_cons_succ]

theorem measureGo_eq_applyFields (sep qual : Str) : ∀ (fuel : Nat) (s : Str) (m : CMap)
    (n : Nat), measureGo fuel m s sep qual n = applyFields m (fieldLensGo fuel s sep qual) n := by
  intro fuel
  induction fuel with
  | zero => intro s m n; rfl
  | succ fuel ih =>
    intro s m n
    simp only [measureGo, fieldLensGo]
    by_cases hs : s = []
    · rw [if_pos hs, if_pos hs]; rfl
    · rw [if_neg hs, if_neg hs]
      by_cases hg : genFieldLen s sep qual + sep.length = 0
      · rw [if_pos hg, if_pos hg]; rfl
      · rw [if_neg hg, if_neg hg, ih]; rfl

theorem measurePass_get (sep qual : Str) (lines : List Str) : ∀ (m : CMap) (k : Nat),
    mapGet (lines.foldl
        (fun counts line => measureGo (line.length + 1) counts line sep qual 0) m) k =
      lines.foldl
        (fun acc l => max acc ((fieldLensGo (l.length + 1) l sep qual).getD k 0))
        (mapGet m k) := by
  induction lines with
  | nil => intro m k; rfl
  | cons l ls ih =>
    intro m k
    simp only [List.foldl_cons]
    rw [ih]
    have hstep : mapGet (measureGo (l.length + 1) m l sep qual 0) k =
        max (mapGet m k) ((fieldLensGo (l.length + 1) l sep qual).getD k 0) := by
      rw [measureGo_eq_applyFields, applyFields_get]
      simp
    rw [hstep]

theorem measurePass_lookup_none (sep qual : Str) (lines : List Str) :
    ∀ (m : CMap) (k : Nat),
    ((lines.foldl
        (fun counts line => measureGo (line.length + 1) counts line sep qual 0) m).lookup k
          = none ↔
      (m.lookup k = none ∧
        ∀ l ∈ lines, (fieldLensGo (l.length + 1) l sep qual).getD k 0 ≤ mapGet m k)) := by
  induction lines with
  | nil => intro m k; simp
  | cons l ls ih =>
    intro m k
    simp only [List.foldl_cons]
    rw [ih]
    have hlk : ((measureGo (l.length + 1) m l sep qual 0).lookup k = none ↔
        (m.lookup k = none ∧ (fieldLensGo (l.length + 1) l sep qual).getD k 0 ≤ mapGet m k)) := by
      rw [measureGo_eq_applyFields, applyFields_lookup_none]
      simp
    have hget : mapGet (measureGo (l.length + 1) m l sep qual 0) k =
        max (mapGet m k) ((fieldLensGo (l.length + 1) l sep qual).getD k 0) := by
      rw [measureGo_eq_applyFields, applyFields_get]
      simp
    rw [hlk, hget]
    constructor
    · rintro ⟨⟨h1, h2⟩, h3⟩
      refine ⟨h1, ?_⟩
      intro l' hl'
      rcases List.mem_cons.1 hl' with heq | hl'
      · subst heq; exact h2
      · have := h3 l' hl'
        omega
    · rintro ⟨h1, h2⟩
      have hcl := h2 l (List.mem_cons_self l ls)
      refine ⟨⟨h1, hcl⟩, ?_⟩
      intro l' hl'
      have := h2 l' (List.mem_cons_of_mem l hl')
      omega

theorem foldl_max_le_iff (f : Str → Nat) (lines : List Str) : ∀ (a b : Nat),
    (lines.foldl (fun acc l => max acc (f l)) a ≤ b ↔ (a ≤ b ∧ ∀ l ∈ lines, f l ≤ b)) := by
  induction lines with
  | nil => intro a b; simp
  | cons l ls ih =>
    intro a b
    simp only [List.foldl_cons]
    rw [ih]
    simp only [Nat.max_le, List.mem_cons]
    constructor
    · rintro ⟨⟨h1, h2⟩, h3⟩
      exact ⟨h1, fun l' hl' => hl'.elim (fun he => he ▸ h2) (h3 l')⟩
    · rintro ⟨h1, h2⟩
      exact ⟨⟨h1, h2 l (Or.inl rfl)⟩, fun l' hl' => h2 l' (Or.inr hl')⟩

theorem columnSize_eq_neg_one_iff (m : CMap) (k : Nat) :
    columnSize m k = -1 ↔ m.lookup k = none := by
  unfold columnSize
  cases m.lookup k with
  | none => simp
  | some v =>
    simp only [Option.some.injEq]
    constructor
    · intro h; omega
    · intro h; exact Option.noConfusion h

theorem columnSize_eq_of_lookup_some {m : CMap} {k v : Nat} (h : m.lookup k = some v) :
    columnSize m k = (v : Int) := by
  unfold columnSize
  rw [h]

/-- C3 counterexample: in the single input line `","` column index 0 appears
(the measuring pass examines one field there, of length 0), yet after
`columnLength` the width table holds no entry at all, and `columnSize`
returns the never-seen sentinel `-1` for column 0 instead of holding that
column's maximum width 0. -/
theorem columnLength_empty_column_counterexample :
    fieldLens [','] [','] [] = [0] ∧
    columnLength false [[',']] [','] [] = [] ∧
    columnSize (columnLength false [[',']] [','] []) 0 = -1 := by
  decide

/-- C3 amended: after the measurement pass, reading the width table as a Go
map (absent key read as 0, which is how `export` reads it) gives for every
column index the maximum measured field byte length at that index across all
lines; the table holds an entry for an index exactly when that maximum is
positive, so `columnSize` returns the maximum when it is positive and the
sentinel `-1` both for an index never seen and for an index all of whose
fields are empty. -/
theorem columnLength_spec (txtqOn : Bool) (lines : List Str) (sep qual : Str) (c : Nat) :
    mapGet (columnLength txtqOn lines sep qual) c = maxWidthAt txtqOn lines sep qual c ∧
    (columnSize (columnLength txtqOn lines sep qual) c = -1 ↔
      maxWidthAt txtqOn lines sep qual c = 0) ∧
    (0 < maxWidthAt txtqOn lines sep qual c →
      columnSize (columnLength txtqOn lines sep qual) c =
        (maxWidthAt txtqOn lines sep qual c : Int)) ∧
    ((∀ l ∈ lines, (measuredWidths txtqOn l sep qual).length ≤ c) →
      columnSize (columnLength txtqOn lines sep qual) c = -1) := by
  have hq0 : mapGet ([] : CMap) c = 0 := rfl
  have hgetpass := measurePass_get sep (if txtqOn then qual else []) lines [] c
  rw [hq0] at hgetpass
  have hget : mapGet (columnLength txtqOn lines sep qual) c =
      maxWidthAt txtqOn lines sep qual c := hgetpass
  have hmaxle : ∀ b : Nat, (maxWidthAt txtqOn lines sep qual c ≤ b ↔
      (0 ≤ b ∧ ∀ l ∈ lines, (measuredWidths txtqOn l sep qual).getD c 0 ≤ b)) :=
    fun b => foldl_max_le_iff (fun l => (measuredWidths txtqOn l sep qual).getD c 0) lines 0 b
  have hnonepass := measurePass_lookup_none sep (if txtqOn then qual else []) lines [] c
  have hnone : ((columnLength txtqOn lines sep qual).lookup c = none ↔
      maxWidthAt txtqOn lines sep qual c = 0) := by
    rw [show (columnLength txtqOn lines sep qual).lookup c =
        ((lines.foldl (fun counts line =>
          measureGo (line.length + 1) counts line sep (if txtqOn then qual else []) 0)
          ([] : CMap)).lookup c) from rfl]
    rw [hnonepass]
    constructor
    · rintro ⟨_, h2⟩
      have hle : maxWidthAt txtqOn lines sep qual c ≤ 0 := by
        rw [hmaxle 0]
        refine ⟨Nat.le_refl 0, ?_⟩
        intro l hl
        have := h2 l hl
        rw [hq0] at this
        exact this
      omega
    · intro h0
      refine ⟨rfl, ?_⟩
      intro l hl
      rw [hq0]
      have hle : maxWidthAt txtqOn lines sep qual c ≤ 0 := by omega
      rw [hmaxle 0] at hle
      exact hle.2 l hl
  refine ⟨hget, ?_, ?_, ?_⟩
  · rw [columnSize_eq_neg_one_iff]
    exact hnone
  · intro hpos
    cases hx : (columnLength txtqOn lines sep qual).lookup c with
    | none =>
      have := hnone.1 hx
      omega
    | some v =>
      have hv : mapGet (columnLength txtqOn lines sep qual) c = v := by
        unfold mapGet
        rw [hx]
        rfl
      rw [columnSize_eq_of_lookup_some hx]
      rw [hv] at hget
      rw [hget]
  · intro hall
    rw [columnSize_eq_neg_one_iff, hnone]
    have hle : maxWidthAt txtqOn lines sep qual c ≤ 0 := by
      rw [hmaxle 0]
      refine ⟨Nat.le_refl 0, ?_⟩
      intro l hl
      rw [List.getD_eq_default _ _ (hall l hl)]
    omega

/-- Witness for C3 at concrete inputs: for the single line `"a"`, column 0
has maximum width 1 and `columnSize` returns it, while the never-seen column
5 yields the sentinel `-1`. -/
theorem columnLength_spec_witness :
    columnSize (columnLength false [['a']] [','] []) 0 = 1 ∧
    columnSize (columnLength false [['a']] [','] []) 5 = -1 := by
  constructor
  · have h := (columnLength_spec false [['a']] [','] [] 0).2.2.1 (by decide)
    rw [h]
    decide
  · exact (columnLength_spec false [['a']] [','] [] 5).2.2.2 (by decide)

/-- C1 (code bug): with the default configuration (separator `","`, Left
justification, pad 1, no filter) the single input line `"ab"` renders as
`"ab ,"` — the final (and only) field of the row is followed by the output
separator and no line terminator is written, because the end-of-row test of
`export` compares the column counter (1) with the padded field's byte length
(3) instead of the number of fields, contradicting the code's own comment
"Do not add a delimiter to the last field". -/
theorem export_trailing_separator_no_newline :
    align { sep := [','], sepOut := [','], txtqOn := false, qual := [],
            justification := Justification.left, columnOverride := [], pad := 1,
            filter := [] } [['a', 'b']] = ['a', 'b', ' ', ','] := by
  decide

/-- C2 counterexample: on the input lines `"a,bb,ccc"` and `"dddd,e,f"` with
separator `","`, default Left justification and pad width 1, the rendered
output is not the two lines `"a    bb  ccc\n"` and `"dddd e   f\n"` claimed
by the specification. -/
theorem align_example_output_differs :
    ¬ (align
        { sep := [','], sepOut := [','], txtqOn := false, qual := [],
          justification := Justification.left, columnOverride := [], pad := 1,
          filter := [] }
        [['a', ',', 'b', 'b', ',', 'c', 'c', 'c'],
         ['d', 'd', 'd', 'd', ',', 'e', ',', 'f']] =
      ['a', ' ', ' ', ' ', ' ', 'b', 'b', ' ', ' ', 'c', 'c', 'c', '\n',
       'd', 'd', 'd', 'd', ' ', 'e', ' ', ' ', ' ', 'f', '\n']) := by
  decide

/-- C2 amended: on the input lines `"a,bb,ccc"` and `"dddd,e,f"` with
separator `","`, default Left justification and pad width 1, the measuring
pass produces the width table mapping column 0 to 4, column 1 to 2 and
column 2 to 3, and the rendered output is the single unterminated sequence
`"a    , bb , ccc ,dddd , e  , f   ,"`: fields are padded to the recorded
column widths and separated by the output separator `","` (which defaults to
the input separator) with one pad space on each side, every field including
the last of each line is followed by the separator, and no line terminator
is ever written because the end-of-row test compares the column counter with
the padded field's byte length, which never coincide here. -/
theorem align_example_eval :
    columnLength false
        [['a', ',', 'b', 'b', ',', 'c', 'c', 'c'],
         ['d', 'd', 'd', 'd', ',', 'e', ',', 'f']] [','] [] =
      [(0, 4), (1, 2), (2, 3)] ∧
    columnSize (columnLength false
        [['a', ',', 'b', 'b', ',', 'c', 'c', 'c'],
         ['d', 'd', 'd', 'd', ',', 'e', ',', 'f']] [','] []) 0 = 4 ∧
    columnSize (columnLength false
        [['a', ',', 'b', 'b', ',', 'c', 'c', 'c'],
         ['d', 'd', 'd', 'd', ',', 'e', ',', 'f']] [','] []) 1 = 2 ∧
    columnSize (columnLength false
        [['a', ',', 'b', 'b', ',', 'c', 'c', 'c'],
         ['d', 'd', 'd', 'd', ',', 'e', ',', 'f']] [','] []) 2 = 3 ∧
    align { sep := [','], sepOut := [','], txtqOn := false, qual := [],
            justification := Justification.left, columnOverride := [], pad := 1,
            filter := [] }
        [['a', ',', 'b', 'b', ',', 'c', 'c', 'c'],
         ['d', 'd', 'd', 'd', ',', 'e', ',', 'f']] =
      ['a', ' ', ' ', ' ', ' ', ',', ' ', 'b', 'b', ' ', ',', ' ', 'c', 'c', 'c', ' ', ',',
       'd', 'd', 'd', 'd', ' ', ',', ' ', 'e', ' ', ' ', ',', ' ', 'f', ' ', ' ', ' ', ','] := by
  refine ⟨by decide, by decide, by decide, by decide, by decide⟩

/-- C6 (code bug): with `columnFilter = [1,3]` and otherwise default options
(separator `","`, pad 1, Left), the 3-field input line `",b,c"` renders as
`" \n"`: after emitting column 1 (the empty first field, padded to one
byte), the end-of-row test fires because the column counter (1) equals the
padded field's byte length (1), so the row breaks before column 3's field
`"c"` is ever emitted — instead of emitting the fields of columns 1 and 3 as
the claim requires. -/
theorem export_filter_premature_break :
    align { sep := [','], sepOut := [','], txtqOn := false, qual := [],
            justification := Justification.left, columnOverride := [], pad := 1,
            filter := [(1 : Int), 3] } [[',', 'b', ',', 'c']] = [' ', '\n'] := by
  decide

/-- C10: with the text qualifier enabled, `splitWithQual` on an empty line
yields no fields and `export` writes no bytes at all for that line, not even
a line terminator; with the qualifier disabled the empty line splits into
exactly one empty field, which is rendered (padded by `applyPadding` and
followed by the row terminator or the output separator according to the
end-of-row test). -/
theorem empty_line_spec (cfg : Config) (counts : CMap) (spad : Str) :
    (cfg.txtqOn = true →
      splitWithQual cfg.txtqOn [] cfg.sep cfg.qual = [] ∧
      exportLine cfg counts spad [] = []) ∧
    (cfg.txtqOn = false →
      splitWithQual cfg.txtqOn [] cfg.sep cfg.qual = [([] : Str)] ∧
      (cfg.filter = [] →
        exportLine cfg counts spad [] =
          (if 0 + 1 =
              (applyPadding [] [] spad 0 (countPadding [] ((mapGet counts 0 : Nat) : Int))
                (effectiveJust cfg.justification cfg.columnOverride 0)).length then
            applyPadding [] [] spad 0 (countPadding [] ((mapGet counts 0 : Nat) : Int))
                (effectiveJust cfg.justification cfg.columnOverride 0) ++ ['\n']
          else
            applyPadding [] [] spad 0 (countPadding [] ((mapGet counts 0 : Nat) : Int))
                (effectiveJust cfg.justification cfg.columnOverride 0) ++ cfg.sepOut))) := by
  have hsplit_nil : splitQualLoop [] cfg.sep cfg.qual = [] := splitQualGo_nil _ _ _
  have hsplit_off : goSplit [] cfg.sep = [([] : Str)] := by
    by_cases hsep : cfg.sep = []
    · simp [goSplit, goSplitGo, hsep]
    · exact goSplitGo_nil_of_sep_ne (by omega) hsep
  constructor
  · intro hon
    have h1 : splitWithQual cfg.txtqOn [] cfg.sep cfg.qual = [] := by
      rw [splitWithQual, hon]
      simpa using hsplit_nil
    refine ⟨h1, ?_⟩
    rw [exportLine, h1]
    rfl
  · intro hoff
    have h1 : splitWithQual cfg.txtqOn [] cfg.sep cfg.qual = [([] : Str)] := by
      rw [splitWithQual, hoff]
      simpa using hsplit_off
    refine ⟨h1, ?_⟩
    intro hfilter
    rw [exportLine, h1]
    simp only [exportLoop, hfilter, List.length_nil, List.length_cons]
    split
    · next hskip => exact absurd hskip.1 (lt_irrefl 0)
    · next hskip =>
      split
      · next hbrk =>
        rcases hbrk with hbrk | hbrk
        · exact absurd hbrk.1 (lt_irrefl 0)
        · rw [if_pos hbrk]
      · next hbrk =>
        rw [if_neg (fun hh => hbrk (Or.inr hh))]
        simp

/-- Witness for C10 at concrete configurations: with the qualifier on, the
empty line contributes no output bytes at all; with it off, the empty line
renders as one empty field padded to `" "` followed by the row terminator
(the padded byte length happens to equal the column counter here). -/
theorem empty_line_spec_witness :
    exportLine { sep := [','], sepOut := [','], txtqOn := true, qual := ['q'],
                 justification := Justification.left, columnOverride := [], pad := 1,
                 filter := [] } [] [' '] [] = [] ∧
    exportLine { sep := [','], sepOut := [','], txtqOn := false, qual := [],
                 justification := Justification.left, columnOverride := [], pad := 1,
                 filter := [] } [] [' '] [] = [' ', '\n'] := by
  constructor
  · exact ((empty_line_spec
      { sep := [','], sepOut := [','], txtqOn := true, qual := ['q'],
        justification := Justification.left, columnOverride := [], pad := 1,
        filter := [] } [] [' ']).1 rfl).2
  · have h := ((empty_line_spec
      { sep := [','], sepOut := [','], txtqOn := false, qual := [],
        justification := Justification.left, columnOverride := [], pad := 1,
        filter := [] } [] [' ']).2 rfl).2 rfl
    rw [h]
    decide
